import Mathlib

/-!
Verification development for the incremental indexing engine of injestdb.
The definitions below are a shallow embedding of the code in
`src/lib/schemas.js` (schema validation and schema diffing) and of the
indexer module (archive indexing, history scanning, update application,
rebuild resets and watch lifecycle).  Stateful JavaScript is rendered as
explicit state passing; the external table-store collaborator (put, get,
delete, clear) is a key-value map; JavaScript exceptions are `Except`.
-/

namespace Injest

/-- JSON-like values: the content of record files and the dynamic values
held in schema fields.  `undef` models the JavaScript value `undefined`. -/
inductive JVal where
  | undef
  | null
  | bool (b : Bool)
  | num (n : Int)
  | str (s : String)
  | arr (xs : List JVal)

mutual

/-- Structural equality on `JVal`, matching JavaScript strict equality on
primitives and element-wise comparison on arrays. -/
def jvalBeq : JVal → JVal → Bool
  | JVal.undef, JVal.undef => true
  | JVal.null, JVal.null => true
  | JVal.bool a, JVal.bool b => a == b
  | JVal.num a, JVal.num b => a == b
  | JVal.str a, JVal.str b => a == b
  | JVal.arr xs, JVal.arr ys => jvalListBeq xs ys
  | _, _ => false

/-- Element-wise equality on lists of `JVal`. -/
def jvalListBeq : List JVal → List JVal → Bool
  | [], [] => true
  | x :: xs, y :: ys => jvalBeq x y && jvalListBeq xs ys
  | _, _ => false

end

/-- JavaScript truthiness of a `JVal`. -/
def jsTruthy : JVal → Bool
  | JVal.undef => false
  | JVal.null => false
  | JVal.bool b => b
  | JVal.num n => n != 0
  | JVal.str s => s != ""
  | JVal.arr _ => true

/-- Truthiness of a possibly absent field (absent reads as `undefined`). -/
def jsTruthyO : Option JVal → Bool
  | none => false
  | some v => jsTruthy v

/-- The JavaScript `typeof` operator on a `JVal`. -/
def jsTypeof : JVal → String
  | JVal.undef => "undefined"
  | JVal.null => "object"
  | JVal.bool _ => "boolean"
  | JVal.num _ => "number"
  | JVal.str _ => "string"
  | JVal.arr _ => "object"

/-- `isArrayOfStrings` from `src/lib/schemas.js`: an array all of whose
elements have type string. -/
def isArrayOfStrings : JVal → Bool
  | JVal.arr xs => xs.all (fun x => jsTypeof x == "string")
  | _ => false

/-- A declared table definition inside a schema object: its `index` field
(arbitrary dynamic value before sanitization) and its ingest `path`. -/
structure RawTable where
  index : Option JVal
  path : Option String

/-- A schema object: a `version` field, a (normally absent) top-level
`index` field, and a mapping of table name to table definition, where a
`none` value models an explicit JavaScript `null` (table removed). -/
structure RawSchema where
  version : Option JVal
  index : Option JVal
  tables : List (String × Option RawTable)

/-- `arrayify` from `src/lib/schemas.js`: wrap a non-array in a singleton
array (an absent field reads as `undefined` and is wrapped as such). -/
def arrayify : Option JVal → JVal
  | some (JVal.arr xs) => JVal.arr xs
  | some v => JVal.arr [v]
  | none => JVal.arr [JVal.undef]

/-- The version assertion of `validateAndSanitize`:
`schema.version > 0 && typeof schema.version === 'number'`.  For any
non-number the `typeof` conjunct is false, so only positive numbers pass. -/
def versionOk : Option JVal → Bool
  | some (JVal.num n) => decide (0 < n)
  | _ => false

/-- `assert` from the util module: raise a schema error when the condition
is falsy, otherwise continue. -/
def assertJs (cond : Bool) (msg : String) : Except String Unit :=
  if cond then Except.ok () else Except.error msg

/-- One iteration of the per-table loop in `validateAndSanitize`: a `null`
table (deleted) is skipped; otherwise the index-specifier assertion runs
(note: exactly as in the source, it inspects the top-level `schema.index`,
not `table.index`) and the table's `index` field is arrayified. -/
def sanitizeTable (schema : RawSchema) (entry : String × Option RawTable) :
    Except String (String × Option RawTable) :=
  match entry with
  | (name, none) => Except.ok (name, none)
  | (name, some t) => do
      let _ ← assertJs
        (!jsTruthyO schema.index
          || jsTypeof (schema.index.getD JVal.undef) == "string"
          || isArrayOfStrings (schema.index.getD JVal.undef))
        "The .index field must be a string or an array of strings"
      Except.ok (name, some { t with index := some (arrayify t.index) })

/-- `validateAndSanitize` from `src/lib/schemas.js`.  A `RawSchema` is by
construction an object, so the first assertion always passes. -/
def validateAndSanitize (schema : RawSchema) : Except String RawSchema := do
  let _ ← assertJs true "Must pass a schema object"
  let _ ← assertJs (versionOk schema.version)
    "The .version field is required and must be a number"
  let tables ← schema.tables.mapM (sanitizeTable schema)
  Except.ok { schema with tables := tables }

/-- The result of comparing two index-specifier arrays. -/
structure ArrayDiff where
  add : List JVal
  remove : List JVal

/-- Elements of a `JVal` that is an array (else no elements). -/
def jvalElems : Option JVal → List JVal
  | some (JVal.arr xs) => xs
  | _ => []

/-- Modelled from the spec: `diffArrays` lives in the util module of the
repository, which is not among the provided sources.  Per the spec, the
comparison of two index-definition lists yields the added and the removed
index specifiers. -/
def diffArrays (o n : Option JVal) : ArrayDiff :=
  { add := (jvalElems n).filter (fun x => !((jvalElems o).any (jvalBeq x)))
    remove := (jvalElems o).filter (fun x => !((jvalElems n).any (jvalBeq x))) }

/-- The per-table comparison result of `diffTables`: an index delta (the
JavaScript value `false`, modelled `none`, when the new definition has a
falsy `index`) and the rebuild flag. -/
structure TableChanges where
  indexDiff : Option ArrayDiff
  needsRebuild : Bool

/-- JavaScript truthiness of a `path` field holding a string or absent. -/
def pathTruthy : Option String → Bool
  | some s => s != ""
  | none => false

/-- `diffTables` from `src/lib/schemas.js`.  The old table definition may
be the JavaScript value `null` (modelled `none`); reading `.index` or
`.path` off `null` raises a TypeError, modelled as `Except.error`.  The
reads are guarded exactly as in the source: `newTableDef.index ? ... : false`
and the short-circuit `newTableDef.path && oldTableDef.path !== newTableDef.path`. -/
def diffTables (o : Option RawTable) (n : RawTable) : Except Unit TableChanges :=
  match (if jsTruthyO n.index then
           match o with
           | some od => Except.ok (some (diffArrays od.index n.index))
           | none => Except.error ()
         else Except.ok (none : Option ArrayDiff)) with
  | Except.error e => Except.error e
  | Except.ok idx =>
    match (if pathTruthy n.path then
             match o with
             | some od => Except.ok (decide (od.path ≠ n.path))
             | none => Except.error ()
           else Except.ok false) with
    | Except.error e => Except.error e
    | Except.ok nr => Except.ok { indexDiff := idx, needsRebuild := nr }

/-- The four-way result of `diff`. -/
structure SchemaDiff where
  add : List (String × Option RawTable)
  change : List (String × TableChanges)
  remove : List String
  tablesToRebuild : List String

/-- `getTableNames` from `src/lib/schemas.js`: all keys except `version`
(empty for an absent schema). -/
def getTableNames : Option RawSchema → List String
  | some s => s.tables.map (fun e => e.1)
  | none => []

/-- Property lookup `schema[tableName]`: `none` when the key is absent
(reads as `undefined`), `some none` when the key is explicitly `null`. -/
def tableVal (s : RawSchema) (n : String) : Option (Option RawTable) :=
  (s.tables.find? (fun e => e.1 == n)).map (fun e => e.2)

/-- `oldSchemaHasTable`: the JavaScript `in` operator, true whenever the
key is present, including a key explicitly mapped to `null`. -/
def oldHasTable (o : Option RawSchema) (n : String) : Bool :=
  match o with
  | some s => (s.tables.map (fun e => e.1)).contains n
  | none => false

/-- `newSchemaHasTable = (newSchema[tableName] !== null)`: false only for
an explicit `null`; an absent key reads as `undefined`, which is not
strictly equal to `null`, hence true. -/
def newHasTable (s : RawSchema) (n : String) : Bool :=
  match tableVal s n with
  | some none => false
  | _ => true

/-- Deduplication keeping the first occurrence, the iteration order of a
JavaScript `Set` built by insertion. -/
def dedupFirst (l : List String) : List String :=
  l.foldl (fun acc x => if acc.contains x then acc else acc ++ [x]) []

/-- The old table definition handed to `diffTables`: `oldSchema[tableName]`
with an explicit `null` flattened to `none`. -/
def oldDefOf (o : Option RawSchema) (n : String) : Option RawTable :=
  (match o with
   | some os => tableVal os n
   | none => none).bind id

/-- One iteration of the loop over `allTableNames` in `diff`. -/
def diffStep (o : Option RawSchema) (nw : RawSchema) (d : SchemaDiff) (n : String) :
    Except Unit SchemaDiff :=
  if oldHasTable o n && !newHasTable nw n then
    Except.ok { d with remove := d.remove ++ [n] }
  else if !oldHasTable o n && newHasTable nw n then
    Except.ok { d with add := d.add ++ [(n, (tableVal nw n).bind id)],
                       tablesToRebuild := d.tablesToRebuild ++ [n] }
  else
    match tableVal nw n with
    | some (some td) =>
      match diffTables (oldDefOf o n) td with
      | Except.ok tc =>
        let d1 := if tc.indexDiff.isSome then { d with change := d.change ++ [(n, tc)] } else d
        Except.ok (if tc.needsRebuild then
          { d1 with tablesToRebuild := d1.tablesToRebuild ++ [n] } else d1)
      | Except.error e => Except.error e
    | _ => Except.ok d

/-- `diff` from `src/lib/schemas.js`: iterate the union of table names of
both schemas and accumulate the four-way diff; a TypeError raised inside an
iteration aborts the whole call. -/
def diff (o : Option RawSchema) (nw : RawSchema) : Except Unit SchemaDiff :=
  (dedupFirst (getTableNames o ++ getTableNames (some nw))).foldlM (diffStep o nw)
    { add := [], change := [], remove := [], tablesToRebuild := [] }

/-- The remove set of a diff result (empty when the call raised). -/
def removeSetOf (r : Except Unit SchemaDiff) : List String :=
  match r with
  | Except.ok d => d.remove
  | Except.error _ => []

/-- The rebuild set of a diff result (empty when the call raised). -/
def rebuildSetOf (r : Except Unit SchemaDiff) : List String :=
  match r with
  | Except.ok d => d.tablesToRebuild
  | Except.error _ => []

/-- A record as stored in a table: the deserialized file content plus the
two provenance fields the indexer attaches (`_url`, the key, and
`_origin`). -/
structure StoredRecord where
  content : JVal
  url : String
  origin : String

/-- One entry of an archive change history: `{path, type, version}`. -/
structure HistoryEntry where
  path : String
  type : String
  version : Nat
deriving DecidableEq

/-- The bytes at a path of an archive, as seen through `JSON.parse`:
either not valid JSON (`JSON.parse` raises) or a parsed value. -/
inductive FileContent where
  | invalid
  | json (v : JVal)

/-- An archive handle: stable URL, current remote version (as reported by
`getInfo`), its append-only change history and its current files. -/
structure Archive where
  url : String
  version : Nat
  history : List HistoryEntry
  files : List (String × FileContent)

/-- A declared table: name, its record-file path pattern (the anymatch
pattern contributed to `tablePathPatterns`), its record-file predicate and
its optional validator (a `none` result models a validator throw). -/
structure Table where
  name : String
  pathPattern : String → Bool
  isRecordFile : String → Bool
  validator : Option (JVal → Option JVal)

/-- One persisted IndexMeta record: archive URL, last indexed version and
the writability snapshot. -/
structure IndexMeta where
  url : String
  version : Nat
  isWritable : Bool

/-- The table-store collaborator: per table name, a map from record URL to
stored record (the store contract of the spec: put, get, delete, clear). -/
def Store := String → String → Option StoredRecord

/-- The store with no records. -/
def emptyStore : Store := fun _ _ => none

/-- `put` on a table object store: the record is keyed by its record URL. -/
def storePut (s : Store) (tbl : String) (r : StoredRecord) : Store :=
  fun t k => if t == tbl && k == r.url then some r else s t k

/-- `delete` on a table object store. -/
def storeDelete (s : Store) (tbl url : String) : Store :=
  fun t k => if t == tbl && k == url then none else s t k

/-- `clear` on a table object store. -/
def storeClear (s : Store) (tbl : String) : Store :=
  fun t k => if t == tbl then none else s t k

/-- The database state the indexer operates on: open and index handles
(truthiness of `db.isOpen` and `db.idx`), the declared tables, the
persisted IndexMeta records, the record store and the set of tables
flagged for rebuild. -/
structure Db where
  isOpen : Bool
  idx : Bool
  tables : List Table
  indexMeta : List IndexMeta
  store : Store
  tablesToRebuild : List String

/-- Read a file of the archive and `JSON.parse` it; a missing file or
invalid JSON raises, which the caller catches (`none`). -/
def readParse (a : Archive) (filepath : String) : Option JVal :=
  match (a.files.find? (fun f => f.1 == filepath)).map (fun f => f.2) with
  | some (FileContent.json v) => some v
  | _ => none

/-- Run the table validator if declared; `none` models a throw. -/
def runValidator (t : Table) (r : JVal) : Option JVal :=
  match t.validator with
  | some f => f r
  | none => some r

/-- `readAndIndexFile` from the indexer: read and parse the file, index it
on the first table whose record-file predicate matches, validating first
when a validator is declared; any failure is caught at this single-file
granularity and yields `false` (modelled `none`) with the store untouched. -/
def readAndIndexFile (db : Db) (a : Archive) (filepath : String) (s : Store) :
    Option String × Store :=
  let fileUrl := a.url ++ filepath
  match readParse a filepath with
  | none => (none, s)
  | some record =>
    match db.tables.find? (fun t => t.isRecordFile filepath) with
    | none => (none, s)
    | some t =>
      match runValidator t record with
      | none => (none, s)
      | some record2 =>
        (some t.name, storePut s t.name { content := record2, url := fileUrl, origin := a.url })

/-- `unindexFile` from the indexer: delete the record keyed by the record
URL from the first table whose predicate matches. -/
def unindexFile (db : Db) (a : Archive) (filepath : String) (s : Store) :
    Option String × Store :=
  let fileUrl := a.url ++ filepath
  match db.tables.find? (fun t => t.isRecordFile filepath) with
  | none => (none, s)
  | some t => (some t.name, storeDelete s t.name fileUrl)

/-- Dispatch one collapsed update: deletions unindex, everything else is
read and indexed. -/
def applyUpdate (db : Db) (a : Archive) (e : HistoryEntry) (s : Store) :
    Option String × Store :=
  if e.type == "del" then unindexFile db a e.path s else readAndIndexFile db a e.path s

/-- `applyUpdates` from the indexer: process every collapsed update and
collect, per path, the name of the table affected (or the falsy marker). -/
def applyUpdates (db : Db) (a : Archive) (updates : List (String × HistoryEntry))
    (s : Store) : List (Option String) × Store :=
  updates.foldl (fun acc pe =>
    let r := applyUpdate db a pe.2 acc.2
    (acc.1 ++ [r.1], r.2)) ([], s)

/-- `anymatch(db._tablePathPatterns, path)`: the union of the record-file
path patterns of all declared tables. -/
def matchesAnyPattern (db : Db) (p : String) : Bool :=
  db.tables.any (fun t => t.pathPattern p)

/-- Assignment `updates[path] = update` on a JavaScript object: replace in
place when the key exists, else append. -/
def upsertEntry (m : List (String × HistoryEntry)) (k : String) (v : HistoryEntry) :
    List (String × HistoryEntry) :=
  match m with
  | [] => [(k, v)]
  | pe :: rest => if pe.1 == k then (k, v) :: rest else pe :: upsertEntry rest k v

/-- Archive collaborator contract: `history({start, end})` returns the
history entries with version in the half-open range. -/
def historySlice (a : Archive) (start stop : Nat) : List HistoryEntry :=
  a.history.filter (fun e => start ≤ e.version && e.version < stop)

/-- `scanArchiveHistoryForUpdates` from the indexer: walk the history
slice in order, keep entries matching some table path pattern and collapse
them per path, later entries overwriting earlier ones. -/
def scanArchiveHistoryForUpdates (db : Db) (a : Archive) (start stop : Nat) :
    List (String × HistoryEntry) :=
  (historySlice a start stop).foldl
    (fun m e => if matchesAnyPattern db e.path then upsertEntry m e.path e else m) []

/-- `IDB.get(db._indexMeta, url)`. -/
def metaFind (ms : List IndexMeta) (url : String) : Option IndexMeta :=
  ms.find? (fun m => m.url == url)

/-- The persisted indexed version of an archive, with the
`indexMeta || {version: 0}` default of the indexer. -/
def metaVersion (ms : List IndexMeta) (url : String) : Nat :=
  match metaFind ms url with
  | some m => m.version
  | none => 0

/-- `IDB.update(db._indexMeta, url, {_url, version})`: merge the new
version into the record with this key, creating it when absent. -/
def metaUpsert (ms : List IndexMeta) (url : String) (v : Nat) : List IndexMeta :=
  match ms with
  | [] => [{ url := url, version := v, isWritable := false }]
  | m :: rest =>
    if m.url == url then { m with version := v } :: rest
    else m :: metaUpsert rest url v

/-- Events emitted by an indexing pass: per-table `index-updated` and the
archive-wide `indexes-updated`. -/
inductive Event where
  | indexUpdated (table : String) (archiveUrl : String) (version : Nat)
  | indexesUpdated (archiveUrl : String) (version : Nat)
deriving DecidableEq

/-- `indexArchive` from the indexer (the `needsRebuild` argument is only
logged by the source and is omitted; the per-archive lock serializes calls
and is not visible to a single call).  Early returns: closed or corrupted
db; an already processed archive version.  Otherwise: scan the window,
apply the collapsed updates, persist the new IndexMeta at the remote
version, and emit one `index-updated` per distinct touched table followed
by one `indexes-updated`. -/
def indexArchive (db : Db) (a : Archive) : Db × List Event :=
  if !db.isOpen then (db, [])
  else if !db.idx then (db, [])
  else
    let v0 := metaVersion db.indexMeta a.url
    if a.version ≤ v0 then (db, [])
    else
      let updates := scanArchiveHistoryForUpdates db a (v0 + 1) (a.version + 1)
      let r := applyUpdates db a updates db.store
      let db2 := { db with store := r.2,
                           indexMeta := metaUpsert db.indexMeta a.url a.version }
      let touched := dedupFirst (r.1.filterMap id)
      (db2, touched.map (fun t => Event.indexUpdated t a.url a.version) ++
            [Event.indexesUpdated a.url a.version])

/-- `resetOutdatedIndexes` from the indexer: no-op returning `false` when
no table is flagged for rebuild; otherwise clear the object store of every
declared table, reset every persisted IndexMeta version to 0 and return
`true`. -/
def resetOutdatedIndexes (db : Db) : Bool × Db :=
  if db.tablesToRebuild.isEmpty then (false, db)
  else
    let cleared := db.tables.foldl (fun s t => storeClear s t.name) db.store
    (true, { db with store := cleared,
                     indexMeta := db.indexMeta.map (fun m => { m with version := 0 }) })

/-- The watch-related state of one archive handle: the `fileEvents` field
(the active file-activity subscription, if any), the set of subscriptions
created and not yet closed, and a counter supplying fresh subscription
identities for `createFileActivityStream`. -/
structure WatchState where
  fileEvents : Option Nat
  liveSubs : List Nat
  nextId : Nat

/-- `watchArchive` from the indexer: return immediately when the archive
already has an active subscription, else create one and store it in
`fileEvents`. -/
def watchArchive (a : WatchState) : WatchState :=
  match a.fileEvents with
  | some _ => a
  | none =>
    { fileEvents := some a.nextId, liveSubs := a.liveSubs ++ [a.nextId],
      nextId := a.nextId + 1 }

/-- `unwatchArchive` from the indexer: close the active subscription if
present and clear `fileEvents`; idempotent. -/
def unwatchArchive (a : WatchState) : WatchState :=
  match a.fileEvents with
  | some s => { a with fileEvents := none, liveSubs := a.liveSubs.erase s }
  | none => a

/-- The single-subscription invariant of an archive handle: the live
subscriptions are exactly the one referenced by `fileEvents`, if any. -/
def watchInv (a : WatchState) : Prop :=
  match a.fileEvents with
  | some s => a.liveSubs = [s]
  | none => a.liveSubs = []

/-- Lookup of a path in a collapsed update mapping. -/
def lookupEntry (m : List (String × HistoryEntry)) (p : String) : Option HistoryEntry :=
  (m.find? (fun pe => pe.1 == p)).map (fun pe => pe.2)

/-- The outcome of processing one update in isolation: the read, match and
validate pipeline never inspects the store, so the affected-table result
of `applyUpdate` is a function of the database, archive and entry alone. -/
def pathOutcome (db : Db) (a : Archive) (e : HistoryEntry) : Option String :=
  (applyUpdate db a e emptyStore).1

/-- The effect of one update on one store cell: `some r` when processing
the entry writes `r` (a record, or `none` for a deletion) at table `t`,
key `k`; `none` when the cell is untouched. -/
def updEffect (db : Db) (a : Archive) (e : HistoryEntry) (t k : String) :
    Option (Option StoredRecord) :=
  if e.type == "del" then
    match db.tables.find? (fun tb => tb.isRecordFile e.path) with
    | some tb => if t == tb.name && k == (a.url ++ e.path) then some none else none
    | none => none
  else
    match readParse a e.path with
    | none => none
    | some record =>
      match db.tables.find? (fun tb => tb.isRecordFile e.path) with
      | none => none
      | some tb =>
        match runValidator tb record with
        | none => none
        | some r2 =>
          if t == tb.name && k == (a.url ++ e.path) then
            some (some { content := r2, url := a.url ++ e.path, origin := a.url })
          else none

/-- The last effect of a batch of updates on one store cell. -/
def batchEffect (db : Db) (a : Archive) (updates : List (String × HistoryEntry))
    (t k : String) : Option (Option StoredRecord) :=
  updates.foldl (fun acc pe =>
    match updEffect db a pe.2 t k with
    | some r => some r
    | none => acc) none

/-- The removal condition of one `diff` iteration. -/
def removeCond (o : Option RawSchema) (nw : RawSchema) (n : String) : Bool :=
  oldHasTable o n && !newHasTable nw n

/-- Whether one successful `diff` iteration pushes the name onto
`tablesToRebuild`. -/
def rebuildFlag (o : Option RawSchema) (nw : RawSchema) (n : String) : Bool :=
  if oldHasTable o n && !newHasTable nw n then false
  else if !oldHasTable o n && newHasTable nw n then true
  else
    match tableVal nw n with
    | some (some td) =>
      match diffTables (oldDefOf o n) td with
      | Except.ok tc => tc.needsRebuild
      | Except.error _ => false
    | _ => false

/-- A table name newly added by the new schema: not declared at all (not
even as `null`) in the old schema, and mapped to a definition in the new. -/
def newlyAdded (o : Option RawSchema) (nw : RawSchema) (n : String) : Bool :=
  !oldHasTable o n &&
  (match tableVal nw n with
   | some (some _) => true
   | _ => false)

/-- A table declared in both schemas whose new definition carries a truthy
ingest path differing from the old definition's path. -/
def pathChangedBoth (o : Option RawSchema) (nw : RawSchema) (n : String) : Bool :=
  oldHasTable o n &&
  (match tableVal nw n with
   | some (some td) =>
     pathTruthy td.path && decide ((oldDefOf o n).bind (fun t => t.path) ≠ td.path)
   | _ => false)

/-- The ingest path of a possibly null table definition. -/
def defPath (t : Option RawTable) : Option String :=
  t.bind (fun x => x.path)

/-- A concrete table for witnesses. -/
def wTable : Table :=
  { name := "posts"
    pathPattern := fun p => p == "/posts/a.json"
    isRecordFile := fun p => p == "/posts/a.json"
    validator := none }

/-- A concrete database for witnesses. -/
def wDb : Db :=
  { isOpen := true, idx := true, tables := [wTable], indexMeta := [],
    store := emptyStore, tablesToRebuild := [] }

/-- A concrete archive for witnesses. -/
def wArch : Archive :=
  { url := "dat://x/", version := 2
    history := [{ path := "/posts/a.json", type := "put", version := 1 }]
    files := [("/posts/a.json", FileContent.json (JVal.num 7))] }

/-- A concrete collapsed update set for witnesses. -/
def wUpdates : List (String × HistoryEntry) :=
  [("/posts/a.json", { path := "/posts/a.json", type := "put", version := 1 })]

/-- A table whose validator rejects every record. -/
def w4Table : Table :=
  { name := "posts"
    pathPattern := fun _ => true
    isRecordFile := fun _ => true
    validator := some (fun _ => none) }

/-- A concrete database whose single table rejects all records. -/
def w4Db : Db :=
  { isOpen := true, idx := true, tables := [w4Table], indexMeta := [],
    store := emptyStore, tablesToRebuild := [] }

/-- A concrete update set hitting the rejecting validator. -/
def w4Updates : List (String × HistoryEntry) :=
  [("/posts/a.json", { path := "/posts/a.json", type := "put", version := 1 })]

/-- A concrete database flagged for rebuild. -/
def w7Db : Db :=
  { isOpen := true, idx := true, tables := [wTable]
    indexMeta := [{ url := "dat://x/", version := 3, isWritable := false }]
    store := emptyStore, tablesToRebuild := ["posts"] }

/-- A concrete watched archive handle. -/
def w10a : WatchState := { fileEvents := some 0, liveSubs := [0], nextId := 1 }

/-- A schema without a version field. -/
def c9NoVersion : RawSchema := { version := none, index := none, tables := [] }

/-- A schema whose version field is a string. -/
def c9BadVersion : RawSchema :=
  { version := some (JVal.str "2"), index := none, tables := [] }

/-- A schema whose table `posts` declares the malformed index specifier
`42` (neither a string nor an array of strings). -/
def c9BadIndex : RawSchema :=
  { version := some (JVal.num 1), index := none
    tables := [("posts", some { index := some (JVal.num 42), path := none })] }

/-- Old schema declaring table `a`. -/
def c5old : RawSchema :=
  { version := some (JVal.num 1), index := none
    tables := [("a", some { index := none, path := none })] }

/-- New schema in which table `a` is simply absent (not declared `null`). -/
def c5new : RawSchema :=
  { version := some (JVal.num 2), index := none, tables := [] }

/-- New schema explicitly mapping table `a` to `null`. -/
def c5newNull : RawSchema :=
  { version := some (JVal.num 2), index := none, tables := [("a", none)] }

/-- Old schema whose table `a` has ingest path `/posts`. -/
def c6old : RawSchema :=
  { version := some (JVal.num 1), index := none
    tables := [("a", some { index := none, path := some "/posts" })] }

/-- New schema whose table `a` declares no ingest path at all. -/
def c6new : RawSchema :=
  { version := some (JVal.num 2), index := none
    tables := [("a", some { index := none, path := none })] }

/-- An empty old schema for the rebuild witness. -/
def w6old : RawSchema := { version := some (JVal.num 1), index := none, tables := [] }

/-- A new schema adding table `b` for the rebuild witness. -/
def w6new : RawSchema :=
  { version := some (JVal.num 2), index := none
    tables := [("b", some { index := none, path := some "/b" })] }

end Injest

namespace Injest

lemma metaVersion_metaUpsert_self (ms : List IndexMeta) (u : String) (v : Nat) :
    metaVersion (metaUpsert ms u v) u = v := by
  induction ms with
  | nil => simp [metaUpsert, metaVersion, metaFind, List.find?]
  | cons m rest ih =>
    by_cases h : m.url = u
    · simp [metaUpsert, metaVersion, metaFind, List.find?, h]
    · have hb : (m.url == u) = false := by simp [h]
      simp only [metaUpsert, hb, Bool.false_eq_true, if_false]
      simpa [metaVersion, metaFind, List.find?, hb] using ih

lemma metaVersion_metaUpsert_ne (ms : List IndexMeta) (u : String) (v : Nat)
    (w : String) (h : w ≠ u) :
    metaVersion (metaUpsert ms u v) w = metaVersion ms w := by
  induction ms with
  | nil =>
    have hb : (u == w) = false := beq_eq_false_iff_ne.mpr (Ne.symm h)
    simp [metaUpsert, metaVersion, metaFind, List.find?, hb]
  | cons m rest ih =>
    simp only [metaUpsert]
    by_cases hm : m.url = u
    · have hmu : (m.url == u) = true := beq_iff_eq.mpr hm
      have hww : (m.url == w) = false :=
        beq_eq_false_iff_ne.mpr (by rw [hm]; exact Ne.symm h)
      simp [hmu, metaVersion, metaFind, List.find?, hww]
    · have hmu : (m.url == u) = false := beq_eq_false_iff_ne.mpr hm
      by_cases hw : m.url = w
      · have hww : (m.url == w) = true := beq_iff_eq.mpr hw
        simp [hmu, metaVersion, metaFind, List.find?, hww]
      · have hww : (m.url == w) = false := beq_eq_false_iff_ne.mpr hw
        simp only [hmu, Bool.false_eq_true, if_false]
        simpa [metaVersion, metaFind, List.find?, hww] using ih

lemma storeClear_fold_lookup (ts : List Table) (s : Store) (tn k : String) :
    (ts.foldl (fun s t => storeClear s t.name) s) tn k =
      if ts.any (fun t => t.name == tn) then none else s tn k := by
  induction ts generalizing s with
  | nil => simp
  | cons t rest ih =>
    simp only [List.foldl_cons, ih, List.any_cons]
    by_cases h1 : rest.any (fun t => t.name == tn) = true
    · simp [h1]
    · by_cases h2 : t.name = tn
      · simp [h1, h2, storeClear]
      · have h2' : (tn == t.name) = false :=
          beq_eq_false_iff_ne.mpr (fun hh => h2 hh.symm)
        have h2'' : (t.name == tn) = false := beq_eq_false_iff_ne.mpr h2
        simp [h1, h2', h2'', storeClear]

/-- Claim C7: resetOutdatedIndexes returns false and changes nothing when
no tables are flagged for rebuild; otherwise it clears the object store of
every declared table (the whole store, not only flagged tables), resets
every persisted IndexMeta version to 0, and returns true. -/
theorem resetOutdatedIndexes_spec (db : Db) :
    (db.tablesToRebuild = [] → resetOutdatedIndexes db = (false, db)) ∧
    (db.tablesToRebuild ≠ [] →
      (resetOutdatedIndexes db).1 = true ∧
      (∀ t ∈ db.tables, ∀ k, (resetOutdatedIndexes db).2.store t.name k = none) ∧
      (resetOutdatedIndexes db).2.indexMeta =
        db.indexMeta.map (fun m => { m with version := 0 })) := by
  constructor
  · intro h
    simp [resetOutdatedIndexes, h]
  · intro h
    have hne : db.tablesToRebuild.isEmpty = false := by
      cases h' : db.tablesToRebuild with
      | nil => exact absurd h' h
      | cons x xs => simp [List.isEmpty]
    refine ⟨by simp [resetOutdatedIndexes, hne], ?_, by simp [resetOutdatedIndexes, hne]⟩
    intro t ht k
    have hany : db.tables.any (fun x => x.name == t.name) = true :=
      List.any_eq_true.mpr ⟨t, ht, by simp⟩
    simp [resetOutdatedIndexes, hne, storeClear_fold_lookup, hany]

/-- Claim C7 witness: a database flagged for rebuild is reset and the call
returns true. -/
theorem resetOutdatedIndexes_spec_witness :
    (resetOutdatedIndexes w7Db).1 = true :=
  ((resetOutdatedIndexes_spec w7Db).2 (by simp [w7Db])).1

/-- Claim C9: validateAndSanitize raises synchronously for a missing or
non-numeric version, but the assertion meant to reject a malformed table
index specifier inspects the top-level `schema.index` instead of
`table.index`, so a schema whose table declares the malformed specifier
`42` is accepted — the code contradicts the spec here. -/
theorem validateAndSanitize_index_check_bug :
    (validateAndSanitize c9NoVersion).isOk = false ∧
    (validateAndSanitize c9BadVersion).isOk = false ∧
    (validateAndSanitize c9BadIndex).isOk = true :=
  ⟨rfl, rfl, rfl⟩

/-- Claim C10: watchArchive on an archive that already has an active
file-activity subscription returns it unchanged, and both watchArchive
and unwatchArchive preserve the at-most-one-active-subscription
invariant. -/
theorem watchArchive_single_subscription (a : WatchState) (h : watchInv a) :
    (a.fileEvents.isSome = true → watchArchive a = a) ∧
    watchInv (watchArchive a) ∧ watchInv (unwatchArchive a) := by
  cases hfe : a.fileEvents with
  | none =>
    have hl : a.liveSubs = [] := by simpa [watchInv, hfe] using h
    refine ⟨by simp [hfe], ?_, ?_⟩
    · simp [watchArchive, hfe, watchInv, hl]
    · simpa [unwatchArchive, hfe, watchInv, hfe] using h
  | some s =>
    have hl : a.liveSubs = [s] := by simpa [watchInv, hfe] using h
    refine ⟨fun _ => by simp [watchArchive, hfe], ?_, ?_⟩
    · simpa [watchArchive, hfe, watchInv] using h
    · simp [unwatchArchive, hfe, watchInv, hl]

/-- Claim C10 witness: a handle holding an active subscription is returned
unchanged by watchArchive. -/
theorem watchArchive_single_subscription_witness : watchArchive w10a = w10a :=
  (watchArchive_single_subscription w10a (by simp [watchInv, w10a])).1 rfl

lemma indexArchive_noop (db : Db) (a : Archive)
    (h : a.version ≤ metaVersion db.indexMeta a.url) :
    indexArchive db a = (db, []) := by
  cases hO : db.isOpen
  · simp [indexArchive, hO]
  · cases hI : db.idx
    · simp [indexArchive, hO, hI]
    · simp [indexArchive, hO, hI, h]

lemma indexArchive_pass_store (db : Db) (a : Archive) (hO : db.isOpen = true)
    (hI : db.idx = true) (hlt : metaVersion db.indexMeta a.url < a.version) :
    (indexArchive db a).1.store =
      (applyUpdates db a (scanArchiveHistoryForUpdates db a
        (metaVersion db.indexMeta a.url + 1) (a.version + 1)) db.store).2 := by
  have hle : ¬ a.version ≤ metaVersion db.indexMeta a.url := by omega
  simp [indexArchive, hO, hI, hle]

lemma indexArchive_pass_indexMeta (db : Db) (a : Archive) (hO : db.isOpen = true)
    (hI : db.idx = true) (hlt : metaVersion db.indexMeta a.url < a.version) :
    (indexArchive db a).1.indexMeta = metaUpsert db.indexMeta a.url a.version := by
  have hle : ¬ a.version ≤ metaVersion db.indexMeta a.url := by omega
  simp [indexArchive, hO, hI, hle]

lemma indexArchive_pass_events (db : Db) (a : Archive) (hO : db.isOpen = true)
    (hI : db.idx = true) (hlt : metaVersion db.indexMeta a.url < a.version) :
    (indexArchive db a).2 =
      (dedupFirst ((applyUpdates db a (scanArchiveHistoryForUpdates db a
        (metaVersion db.indexMeta a.url + 1) (a.version + 1)) db.store).1.filterMap id)).map
          (fun t => Event.indexUpdated t a.url a.version) ++
        [Event.indexesUpdated a.url a.version] := by
  have hle : ¬ a.version ≤ metaVersion db.indexMeta a.url := by omega
  simp [indexArchive, hO, hI, hle]

/-- Claim C1: when the persisted indexed version is at least the remote
version, indexArchive returns without applying updates, writing IndexMeta
or emitting events; otherwise (with the store open and usable) it applies
the collapsed change set scanned from exactly the window
`[indexMeta.version + 1, remoteVersion + 1)`, persists IndexMeta at the
remote version, and emits one per-table index-updated event per distinct
touched table plus one archive-wide indexes-updated event carrying the new
version. -/
theorem indexArchive_window_spec (db : Db) (a : Archive) :
    (a.version ≤ metaVersion db.indexMeta a.url → indexArchive db a = (db, [])) ∧
    (db.isOpen = true → db.idx = true →
      metaVersion db.indexMeta a.url < a.version →
      (indexArchive db a).1.store =
        (applyUpdates db a (scanArchiveHistoryForUpdates db a
          (metaVersion db.indexMeta a.url + 1) (a.version + 1)) db.store).2 ∧
      (indexArchive db a).1.indexMeta = metaUpsert db.indexMeta a.url a.version ∧
      (indexArchive db a).2 =
        (dedupFirst ((applyUpdates db a (scanArchiveHistoryForUpdates db a
          (metaVersion db.indexMeta a.url + 1) (a.version + 1)) db.store).1.filterMap id)).map
            (fun t => Event.indexUpdated t a.url a.version) ++
          [Event.indexesUpdated a.url a.version]) :=
  ⟨indexArchive_noop db a, fun hO hI hlt =>
    ⟨indexArchive_pass_store db a hO hI hlt,
     indexArchive_pass_indexMeta db a hO hI hlt,
     indexArchive_pass_events db a hO hI hlt⟩⟩

/-- Claim C1 witness: an unprocessed archive version gets its IndexMeta
persisted at the remote version. -/
theorem indexArchive_window_spec_witness :
    (indexArchive wDb wArch).1.indexMeta =
      metaUpsert wDb.indexMeta wArch.url wArch.version :=
  ((indexArchive_window_spec wDb wArch).2 rfl rfl (by decide)).2.1

/-- Claim C2: the persisted indexed version never decreases across an
indexing pass, a successful pass leaves it equal to the remote version
read at the start of the pass, and the only reset is the explicit rebuild
reset to 0 performed by resetOutdatedIndexes. -/
theorem indexedVersion_monotone (db : Db) (a : Archive) (url : String) :
    metaVersion db.indexMeta url ≤ metaVersion (indexArchive db a).1.indexMeta url ∧
    (db.isOpen = true → db.idx = true →
      metaVersion db.indexMeta a.url < a.version →
      metaVersion (indexArchive db a).1.indexMeta a.url = a.version) ∧
    ((resetOutdatedIndexes db).1 = true →
      ∀ m ∈ (resetOutdatedIndexes db).2.indexMeta, m.version = 0) := by
  refine ⟨?_, ?_, ?_⟩
  · cases hO : db.isOpen
    · simp [indexArchive, hO]
    · cases hI : db.idx
      · simp [indexArchive, hO, hI]
      · by_cases hle : a.version ≤ metaVersion db.indexMeta a.url
        · simp [indexArchive, hO, hI, hle]
        · rw [indexArchive_pass_indexMeta db a hO hI (by omega)]
          by_cases hu : url = a.url
          · subst hu
            rw [metaVersion_metaUpsert_self]
            omega
          · rw [metaVersion_metaUpsert_ne _ _ _ _ hu]
  · intro hO hI hlt
    rw [indexArchive_pass_indexMeta db a hO hI hlt, metaVersion_metaUpsert_self]
  · intro hres m hm
    cases hE : db.tablesToRebuild.isEmpty
    · have hmeta : (resetOutdatedIndexes db).2.indexMeta =
          db.indexMeta.map (fun m => { m with version := 0 }) := by
        simp [resetOutdatedIndexes, hE]
      rw [hmeta] at hm
      rcases List.mem_map.mp hm with ⟨m0, _, rfl⟩
      rfl
    · simp [resetOutdatedIndexes, hE] at hres

/-- Claim C2 witness: after a pass over an unprocessed archive the
persisted version equals the remote version read at the start. -/
theorem indexedVersion_monotone_witness :
    metaVersion (indexArchive wDb wArch).1.indexMeta wArch.url = wArch.version :=
  (indexedVersion_monotone wDb wArch wArch.url).2.1 rfl rfl (by decide)

lemma lookupEntry_upsert_self (m : List (String × HistoryEntry)) (k : String)
    (v : HistoryEntry) : lookupEntry (upsertEntry m k v) k = some v := by
  induction m with
  | nil => simp [upsertEntry, lookupEntry, List.find?]
  | cons pe rest ih =>
    by_cases h : pe.1 = k
    · have hb : (pe.1 == k) = true := beq_iff_eq.mpr h
      simp [upsertEntry, hb, lookupEntry, List.find?]
    · have hb : (pe.1 == k) = false := beq_eq_false_iff_ne.mpr h
      simp only [upsertEntry, hb, Bool.false_eq_true, if_false]
      simpa [lookupEntry, List.find?, hb] using ih

lemma lookupEntry_upsert_ne (m : List (String × HistoryEntry)) (k : String)
    (v : HistoryEntry) (p : String) (h : p ≠ k) :
    lookupEntry (upsertEntry m k v) p = lookupEntry m p := by
  induction m with
  | nil =>
    have hb : (k == p) = false := beq_eq_false_iff_ne.mpr (Ne.symm h)
    simp [upsertEntry, lookupEntry, List.find?, hb]
  | cons pe rest ih =>
    by_cases hk : pe.1 = k
    · have hb : (pe.1 == k) = true := beq_iff_eq.mpr hk
      have hp : (pe.1 == p) = false :=
        beq_eq_false_iff_ne.mpr (by rw [hk]; exact Ne.symm h)
      have hkp : (k == p) = false := beq_eq_false_iff_ne.mpr (Ne.symm h)
      simp [upsertEntry, hb, lookupEntry, List.find?, hp, hkp]
    · have hb : (pe.1 == k) = false := beq_eq_false_iff_ne.mpr hk
      by_cases hp : pe.1 = p
      · have hpb : (pe.1 == p) = true := beq_iff_eq.mpr hp
        simp [upsertEntry, hb, lookupEntry, List.find?, hpb]
      · have hpb : (pe.1 == p) = false := beq_eq_false_iff_ne.mpr hp
        simp only [upsertEntry, hb, Bool.false_eq_true, if_false]
        simpa [lookupEntry, List.find?, hpb] using ih

lemma scanFold_lookup (db : Db) (l : List HistoryEntry)
    (acc : List (String × HistoryEntry)) (p : String) :
    lookupEntry (l.foldl
      (fun m e => if matchesAnyPattern db e.path then upsertEntry m e.path e else m) acc) p =
    match l.reverse.find? (fun e => matchesAnyPattern db e.path && e.path == p) with
    | some e => some e
    | none => lookupEntry acc p := by
  induction l generalizing acc with
  | nil => simp
  | cons e l ih =>
    simp only [List.foldl_cons, List.reverse_cons]
    rw [ih, List.find?_append]
    cases hf : l.reverse.find? (fun e => matchesAnyPattern db e.path && e.path == p) with
    | some x => simp [Option.or]
    | none =>
      simp only [Option.none_or]
      by_cases hm : matchesAnyPattern db e.path = true
      · by_cases hp : e.path = p
        · subst hp
          simp only [hm, if_true, List.find?, beq_self_eq_true, Bool.and_self,
            Bool.true_and]
          exact lookupEntry_upsert_self _ _ _
        · have hpb : (e.path == p) = false := beq_eq_false_iff_ne.mpr hp
          simp only [hm, if_true, List.find?, hpb, Bool.and_false, Bool.true_and,
            List.find?_nil]
          exact lookupEntry_upsert_ne _ _ _ _ (fun hh => hp hh.symm)
      · have hm' : matchesAnyPattern db e.path = false := by
          cases hmm : matchesAnyPattern db e.path
          · rfl
          · exact absurd hmm hm
        simp [hm', List.find?, Bool.false_and, List.find?_nil]

lemma upsertEntry_mem (m : List (String × HistoryEntry)) (k : String)
    (v : HistoryEntry) (pe : String × HistoryEntry) (h : pe ∈ upsertEntry m k v) :
    pe ∈ m ∨ pe = (k, v) := by
  induction m with
  | nil =>
    right
    simpa [upsertEntry] using h
  | cons q rest ih =>
    by_cases hq : q.1 = k
    · have hb : (q.1 == k) = true := beq_iff_eq.mpr hq
      simp only [upsertEntry, hb, if_true] at h
      rcases List.mem_cons.mp h with h1 | h2
      · right; exact h1
      · left; exact List.mem_cons_of_mem _ h2
    · have hb : (q.1 == k) = false := beq_eq_false_iff_ne.mpr hq
      simp only [upsertEntry, hb, Bool.false_eq_true, if_false] at h
      rcases List.mem_cons.mp h with h1 | h2
      · left; exact h1 ▸ List.mem_cons_self _ _
      · rcases ih h2 with h3 | h4
        · left; exact List.mem_cons_of_mem _ h3
        · right; exact h4

lemma scanFold_wf (db : Db) (l : List HistoryEntry)
    (acc : List (String × HistoryEntry))
    (hacc : ∀ pe ∈ acc, pe.2.path = pe.1 ∧ matchesAnyPattern db pe.1 = true) :
    ∀ pe ∈ l.foldl
      (fun m e => if matchesAnyPattern db e.path then upsertEntry m e.path e else m) acc,
      pe.2.path = pe.1 ∧ matchesAnyPattern db pe.1 = true := by
  induction l generalizing acc with
  | nil => simpa using hacc
  | cons e l ih =>
    simp only [List.foldl_cons]
    apply ih
    intro pe hpe
    by_cases hm : matchesAnyPattern db e.path = true
    · simp only [hm, if_true] at hpe
      rcases upsertEntry_mem _ _ _ _ hpe with h1 | h2
      · exact hacc pe h1
      · subst h2
        exact ⟨rfl, hm⟩
    · have hm' : matchesAnyPattern db e.path = false := by
        cases hmm : matchesAnyPattern db e.path
        · rfl
        · exact absurd hmm hm
      simp only [hm', Bool.false_eq_true, if_false] at hpe
      exact hacc pe hpe

/-- Claim C3: the collapsed update set keeps only history entries whose
path matches some table's record-file path pattern, keyed by their path,
and maps each path to the single latest matching change in the window
(the first hit in the reversed history slice). -/
theorem scanArchiveHistoryForUpdates_collapse (db : Db) (a : Archive)
    (start stop : Nat) :
    (∀ pe ∈ scanArchiveHistoryForUpdates db a start stop,
       pe.2.path = pe.1 ∧ matchesAnyPattern db pe.1 = true) ∧
    (∀ p, lookupEntry (scanArchiveHistoryForUpdates db a start stop) p =
       (historySlice a start stop).reverse.find?
         (fun e => matchesAnyPattern db e.path && e.path == p)) := by
  constructor
  · intro pe hpe
    exact scanFold_wf db (historySlice a start stop) [] (by simp) pe hpe
  · intro p
    rw [scanArchiveHistoryForUpdates, scanFold_lookup db]
    cases hf : (historySlice a start stop).reverse.find?
        (fun e => matchesAnyPattern db e.path && e.path == p) <;>
      simp [lookupEntry, List.find?]

/-- Claim C3 witness: on a concrete archive the scanned mapping is keyed
by matching paths and lookup yields the latest matching entry. -/
theorem scanArchiveHistoryForUpdates_collapse_witness :
    (matchesAnyPattern wDb "/posts/a.json" = true) ∧
    lookupEntry (scanArchiveHistoryForUpdates wDb wArch 1 3) "/posts/a.json" =
      (historySlice wArch 1 3).reverse.find?
        (fun e => matchesAnyPattern wDb e.path && e.path == "/posts/a.json") :=
  ⟨((scanArchiveHistoryForUpdates_collapse wDb wArch 1 3).1
      ("/posts/a.json", { path := "/posts/a.json", type := "put", version := 1 })
      (by decide)).2,
   (scanArchiveHistoryForUpdates_collapse wDb wArch 1 3).2 "/posts/a.json"⟩

lemma applyUpdate_fst (db : Db) (a : Archive) (e : HistoryEntry) (s : Store) :
    (applyUpdate db a e s).1 = pathOutcome db a e := by
  unfold pathOutcome applyUpdate unindexFile readAndIndexFile
  cases htyp : (e.type == "del")
  · simp only [Bool.false_eq_true, if_false]
    cases hr : readParse a e.path
    · simp
    · cases hfind : db.tables.find? (fun t => t.isRecordFile e.path)
      · simp
      · rename_i v t
        cases hv : runValidator t v <;> simp [hv]
  · simp only [if_true]
    cases hfind : db.tables.find? (fun t => t.isRecordFile e.path) <;> simp

lemma applyUpdate_snd_lookup (db : Db) (a : Archive) (e : HistoryEntry) (s : Store)
    (t k : String) :
    (applyUpdate db a e s).2 t k =
      match updEffect db a e t k with
      | some r => r
      | none => s t k := by
  unfold applyUpdate updEffect unindexFile readAndIndexFile storePut storeDelete
  cases htyp : (e.type == "del")
  · simp only [Bool.false_eq_true, if_false]
    cases hr : readParse a e.path
    · simp
    · cases hfind : db.tables.find? (fun tb => tb.isRecordFile e.path)
      · simp
      · rename_i v tb
        cases hv : runValidator tb v
        · simp [hv]
        · rename_i r2
          simp only [hv]
          by_cases hc : (t == tb.name && (k == a.url ++ e.path)) = true
          · simp [hc]
          · have hc' : (t == tb.name && (k == a.url ++ e.path)) = false := by
              cases hcc : (t == tb.name && (k == a.url ++ e.path))
              · rfl
              · exact absurd hcc hc
            simp [hc']
  · simp only [if_true]
    cases hfind : db.tables.find? (fun tb => tb.isRecordFile e.path)
    · simp
    · rename_i tb
      by_cases hc : (t == tb.name && (k == a.url ++ e.path)) = true
      · simp [hc]
      · have hc' : (t == tb.name && (k == a.url ++ e.path)) = false := by
          cases hcc : (t == tb.name && (k == a.url ++ e.path))
          · rfl
          · exact absurd hcc hc
        simp [hc']

lemma applyUpdates_fold_fst (db : Db) (a : Archive)
    (updates : List (String × HistoryEntry)) (p : List (Option String) × Store) :
    (updates.foldl (fun acc pe =>
      let r := applyUpdate db a pe.2 acc.2
      (acc.1 ++ [r.1], r.2)) p).1 =
      p.1 ++ updates.map (fun pe => pathOutcome db a pe.2) := by
  induction updates generalizing p with
  | nil => simp
  | cons pe l ih =>
    simp only [List.foldl_cons, List.map_cons]
    rw [ih]
    simp [applyUpdate_fst]

lemma applyUpdates_fold_snd (db : Db) (a : Archive)
    (updates : List (String × HistoryEntry)) (p : List (Option String) × Store) :
    (updates.foldl (fun acc pe =>
      let r := applyUpdate db a pe.2 acc.2
      (acc.1 ++ [r.1], r.2)) p).2 =
      updates.foldl (fun st pe => (applyUpdate db a pe.2 st).2) p.2 := by
  induction updates generalizing p with
  | nil => rfl
  | cons pe l ih =>
    simp only [List.foldl_cons]
    rw [ih]

lemma batchEffect_restart (db : Db) (a : Archive)
    (updates : List (String × HistoryEntry)) (t k : String)
    (a0 : Option (Option StoredRecord)) :
    updates.foldl (fun acc pe =>
      match updEffect db a pe.2 t k with
      | some r => some r
      | none => acc) a0 =
      match batchEffect db a updates t k with
      | some r => some r
      | none => a0 := by
  induction updates generalizing a0 with
  | nil => simp [batchEffect]
  | cons pe l ih =>
    simp only [batchEffect, List.foldl_cons] at ih ⊢
    rw [ih]
    conv_rhs => rw [ih]
    cases hb : l.foldl (fun acc pe =>
        match updEffect db a pe.2 t k with
        | some r => some r
        | none => acc) none
    · cases he : updEffect db a pe.2 t k <;> simp
    · simp

lemma storeFold_lookup (db : Db) (a : Archive)
    (updates : List (String × HistoryEntry)) (s : Store) (t k : String) :
    (updates.foldl (fun st pe => (applyUpdate db a pe.2 st).2) s) t k =
      match batchEffect db a updates t k with
      | some r => r
      | none => s t k := by
  induction updates generalizing s with
  | nil => simp [batchEffect]
  | cons pe l ih =>
    simp only [List.foldl_cons]
    rw [ih]
    have hBE : batchEffect db a (pe :: l) t k =
        match batchEffect db a l t k with
        | some r => some r
        | none =>
          match updEffect db a pe.2 t k with
          | some r => some r
          | none => none := by
      simp only [batchEffect, List.foldl_cons]
      exact batchEffect_restart db a l t k _
    rw [hBE]
    cases hb : batchEffect db a l t k
    · rw [applyUpdate_snd_lookup]
      cases he : updEffect db a pe.2 t k <;> simp
    · simp

lemma applyUpdates_fst (db : Db) (a : Archive)
    (updates : List (String × HistoryEntry)) (s : Store) :
    (applyUpdates db a updates s).1 =
      updates.map (fun pe => pathOutcome db a pe.2) := by
  unfold applyUpdates
  rw [applyUpdates_fold_fst]
  simp

lemma applyUpdates_snd_lookup (db : Db) (a : Archive)
    (updates : List (String × HistoryEntry)) (s : Store) (t k : String) :
    (applyUpdates db a updates s).2 t k =
      match batchEffect db a updates t k with
      | some r => r
      | none => s t k := by
  unfold applyUpdates
  rw [applyUpdates_fold_snd, storeFold_lookup]

lemma updEffect_none_of_outcome_none (db : Db) (a : Archive) (e : HistoryEntry)
    (t k : String) (h : pathOutcome db a e = none) :
    updEffect db a e t k = none := by
  unfold pathOutcome applyUpdate unindexFile readAndIndexFile at h
  unfold updEffect
  cases htyp : (e.type == "del")
  · simp only [htyp, Bool.false_eq_true, if_false] at h ⊢
    cases hr : readParse a e.path
    · simp [hr]
    · simp only [hr] at h ⊢
      cases hfind : db.tables.find? (fun tb => tb.isRecordFile e.path)
      · simp [hfind]
      · rename_i v tb
        simp only [hfind] at h ⊢
        cases hv : runValidator tb v
        · simp [hv]
        · simp only [hv] at h
          simp at h
  · simp only [htyp, if_true] at h ⊢
    cases hfind : db.tables.find? (fun tb => tb.isRecordFile e.path)
    · simp [hfind]
    · simp only [hfind] at h
      simp at h

lemma updEffect_ne_key (db : Db) (a : Archive) (e : HistoryEntry) (t k : String)
    (h : k ≠ a.url ++ e.path) : updEffect db a e t k = none := by
  have hb : (k == a.url ++ e.path) = false := beq_eq_false_iff_ne.mpr h
  unfold updEffect
  cases htyp : (e.type == "del")
  · simp only [Bool.false_eq_true, if_false]
    cases hr : readParse a e.path
    · rfl
    · cases hfind : db.tables.find? (fun tb => tb.isRecordFile e.path)
      · rfl
      · rename_i v tb
        cases hv : runValidator tb v
        · simp [hv]
        · simp [hv, hb]
  · simp only [if_true]
    cases hfind : db.tables.find? (fun tb => tb.isRecordFile e.path)
    · rfl
    · simp [hb]

lemma batchEffect_none_of_all (db : Db) (a : Archive)
    (updates : List (String × HistoryEntry)) (t k : String)
    (h : ∀ pe ∈ updates, updEffect db a pe.2 t k = none) :
    batchEffect db a updates t k = none := by
  induction updates with
  | nil => rfl
  | cons pe l ih =>
    have hpe : updEffect db a pe.2 t k = none := h pe (List.mem_cons_self _ _)
    simp only [batchEffect, List.foldl_cons, hpe]
    exact ih (fun q hq => h q (List.mem_cons_of_mem _ hq))

lemma string_append_cancel (s t u : String) (h : s ++ t = s ++ u) : t = u := by
  have h2 := congrArg String.data h
  simp only [String.data_append] at h2
  exact String.ext (List.append_cancel_left h2)

/-- Claim C4: every path of a batch is processed to a result that depends
only on that path (per-record failures — unreadable or unparseable file,
validator rejection — yield the falsy marker for that path alone), a
failing path leaves the store untouched at its record URL, other paths
are unaffected, and the indexed version is still advanced after the
batch. -/
theorem applyUpdates_per_record_isolation (db : Db) (a : Archive)
    (updates : List (String × HistoryEntry)) (s : Store)
    (hnd : (updates.map (fun pe => pe.2.path)).Nodup) :
    (applyUpdates db a updates s).1 =
      updates.map (fun pe => pathOutcome db a pe.2) ∧
    (∀ pe ∈ updates, pathOutcome db a pe.2 = none →
      ∀ t, (applyUpdates db a updates s).2 t (a.url ++ pe.2.path) =
        s t (a.url ++ pe.2.path)) ∧
    (∀ db2 : Db, db2.isOpen = true → db2.idx = true →
      metaVersion db2.indexMeta a.url < a.version →
      metaVersion (indexArchive db2 a).1.indexMeta a.url = a.version) := by
  refine ⟨applyUpdates_fst db a updates s, ?_, ?_⟩
  · intro pe hpe hout t
    rw [applyUpdates_snd_lookup]
    have hall : ∀ q ∈ updates, updEffect db a q.2 t (a.url ++ pe.2.path) = none := by
      intro q hq
      by_cases hpp : q.2.path = pe.2.path
      · have hqe : q = pe :=
          List.inj_on_of_nodup_map hnd hq hpe (by rw [hpp])
        subst hqe
        exact updEffect_none_of_outcome_none db a q.2 t _ hout
      · refine updEffect_ne_key db a q.2 t _ (fun hk => hpp ?_)
        exact (string_append_cancel a.url _ _ hk).symm ▸ rfl
    rw [batchEffect_none_of_all db a updates t _ hall]
  · intro db2 hO hI hlt
    rw [indexArchive_pass_indexMeta db2 a hO hI hlt, metaVersion_metaUpsert_self]

/-- Claim C4 witness: a rejecting validator leaves the store empty at the
record URL while the batch still completes. -/
theorem applyUpdates_per_record_isolation_witness :
    (applyUpdates w4Db wArch w4Updates emptyStore).2 "posts"
        (wArch.url ++ "/posts/a.json") =
      emptyStore "posts" (wArch.url ++ "/posts/a.json") :=
  (applyUpdates_per_record_isolation w4Db wArch w4Updates emptyStore (by decide)).2.1
    ("/posts/a.json", { path := "/posts/a.json", type := "put", version := 1 })
    (by decide) (by decide) "posts"

/-- Claim C8: applying the same collapsed update set twice leaves exactly
the same store (same keys, same contents including provenance) as applying
it once, for update sets whose paths are each matched by exactly one
table. -/
theorem applyUpdates_idempotent (db : Db) (a : Archive)
    (updates : List (String × HistoryEntry)) (s : Store)
    (h1 : ∀ pe ∈ updates,
      (db.tables.filter (fun t => t.isRecordFile pe.2.path)).length = 1) :
    (applyUpdates db a updates (applyUpdates db a updates s).2).2 =
      (applyUpdates db a updates s).2 := by
  funext t k
  rw [applyUpdates_snd_lookup, applyUpdates_snd_lookup]
  cases hb : batchEffect db a updates t k <;> rfl

/-- Claim C8 witness: re-applying a concrete update set changes nothing. -/
theorem applyUpdates_idempotent_witness :
    (applyUpdates wDb wArch wUpdates (applyUpdates wDb wArch wUpdates emptyStore).2).2 =
      (applyUpdates wDb wArch wUpdates emptyStore).2 :=
  applyUpdates_idempotent wDb wArch wUpdates emptyStore (by decide)

lemma bool_eq_false {b : Bool} (h : ¬ b = true) : b = false := by
  cases b
  · rfl
  · exact absurd rfl h

lemma diffStep_remove (o : Option RawSchema) (nw : RawSchema) (d : SchemaDiff)
    (n : String) (d2 : SchemaDiff) (h : diffStep o nw d n = Except.ok d2) :
    d2.remove = d.remove ++ (if removeCond o nw n then [n] else []) := by
  unfold diffStep at h
  unfold removeCond
  split at h
  · rename_i hc1
    simp only [Except.ok.injEq] at h
    subst h
    simp [hc1]
  · rename_i hc1
    have hc1' := bool_eq_false hc1
    split at h
    · rename_i hc2
      simp only [Except.ok.injEq] at h
      subst h
      simp [hc1']
    · rename_i hc2
      cases htv : tableVal nw n with
      | none =>
        simp only [htv] at h
        simp only [Except.ok.injEq] at h
        subst h
        simp [hc1']
      | some v =>
        cases v with
        | none =>
          simp only [htv] at h
          simp only [Except.ok.injEq] at h
          subst h
          simp [hc1']
        | some td =>
          simp only [htv] at h
          cases hdt : diffTables (oldDefOf o n) td with
          | error e =>
            rw [hdt] at h
            simp at h
          | ok tc =>
            rw [hdt] at h
            simp only [Except.ok.injEq] at h
            subst h
            by_cases h3 : tc.needsRebuild = true <;>
              by_cases h4 : tc.indexDiff.isSome = true <;>
                simp [h3, h4, bool_eq_false, hc1']

lemma diffStep_rebuild (o : Option RawSchema) (nw : RawSchema) (d : SchemaDiff)
    (n : String) (d2 : SchemaDiff) (h : diffStep o nw d n = Except.ok d2) :
    d2.tablesToRebuild =
      d.tablesToRebuild ++ (if rebuildFlag o nw n then [n] else []) := by
  unfold diffStep at h
  unfold rebuildFlag
  split at h
  · rename_i hc1
    simp only [Except.ok.injEq] at h
    subst h
    simp [hc1]
  · rename_i hc1
    have hc1' := bool_eq_false hc1
    split at h
    · rename_i hc2
      simp only [Except.ok.injEq] at h
      subst h
      simp [hc1', hc2]
    · rename_i hc2
      have hc2' := bool_eq_false hc2
      cases htv : tableVal nw n with
      | none =>
        simp only [htv] at h
        simp only [Except.ok.injEq] at h
        subst h
        simp [hc1', hc2', htv]
      | some v =>
        cases v with
        | none =>
          simp only [htv] at h
          simp only [Except.ok.injEq] at h
          subst h
          simp [hc1', hc2', htv]
        | some td =>
          simp only [htv] at h
          cases hdt : diffTables (oldDefOf o n) td with
          | error e =>
            rw [hdt] at h
            simp at h
          | ok tc =>
            rw [hdt] at h
            simp only [Except.ok.injEq] at h
            subst h
            by_cases h3 : tc.needsRebuild = true <;>
              by_cases h4 : tc.indexDiff.isSome = true <;>
                simp [h3, h4, bool_eq_false, hc1', hc2', htv, hdt]

lemma diffStep_ok_diffTables (o : Option RawSchema) (nw : RawSchema) (d : SchemaDiff)
    (n : String) (d2 : SchemaDiff) (td : RawTable)
    (h : diffStep o nw d n = Except.ok d2)
    (hc1 : (oldHasTable o n && !newHasTable nw n) = false)
    (hc2 : (!oldHasTable o n && newHasTable nw n) = false)
    (htv : tableVal nw n = some (some td)) :
    ∃ tc, diffTables (oldDefOf o n) td = Except.ok tc := by
  unfold diffStep at h
  simp only [hc1, hc2, Bool.false_eq_true, if_false, htv] at h
  cases hdt : diffTables (oldDefOf o n) td with
  | error e =>
    rw [hdt] at h
    simp at h
  | ok tc => exact ⟨tc, rfl⟩

lemma diffFold_remove (o : Option RawSchema) (nw : RawSchema) (names : List String)
    (d0 d : SchemaDiff) (h : names.foldlM (diffStep o nw) d0 = Except.ok d) :
    d.remove = d0.remove ++ names.filter (fun n => removeCond o nw n) := by
  induction names generalizing d0 with
  | nil =>
    rw [List.foldlM_nil] at h
    have h2 : Except.ok d0 = Except.ok d := h
    simp only [Except.ok.injEq] at h2
    subst h2
    simp
  | cons n ns ih =>
    rw [List.foldlM_cons] at h
    cases hstep : diffStep o nw d0 n with
    | error e =>
      rw [hstep] at h
      have : (Except.error e >>= fun d1 => ns.foldlM (diffStep o nw) d1)
          = (Except.error e : Except Unit SchemaDiff) := rfl
      rw [this] at h
      simp at h
    | ok d1 =>
      rw [hstep] at h
      have hb : (Except.ok d1 >>= fun x => ns.foldlM (diffStep o nw) x)
          = ns.foldlM (diffStep o nw) d1 := rfl
      rw [hb] at h
      rw [ih d1 h, diffStep_remove o nw d0 n d1 hstep]
      by_cases hrc : removeCond o nw n = true <;>
        simp [hrc, List.filter_cons, List.append_assoc]

lemma diffFold_rebuild (o : Option RawSchema) (nw : RawSchema) (names : List String)
    (d0 d : SchemaDiff) (h : names.foldlM (diffStep o nw) d0 = Except.ok d) :
    d.tablesToRebuild =
      d0.tablesToRebuild ++ names.filter (fun n => rebuildFlag o nw n) := by
  induction names generalizing d0 with
  | nil =>
    rw [List.foldlM_nil] at h
    have h2 : Except.ok d0 = Except.ok d := h
    simp only [Except.ok.injEq] at h2
    subst h2
    simp
  | cons n ns ih =>
    rw [List.foldlM_cons] at h
    cases hstep : diffStep o nw d0 n with
    | error e =>
      rw [hstep] at h
      have : (Except.error e >>= fun d1 => ns.foldlM (diffStep o nw) d1)
          = (Except.error e : Except Unit SchemaDiff) := rfl
      rw [this] at h
      simp at h
    | ok d1 =>
      rw [hstep] at h
      have hb : (Except.ok d1 >>= fun x => ns.foldlM (diffStep o nw) x)
          = ns.foldlM (diffStep o nw) d1 := rfl
      rw [hb] at h
      rw [ih d1 h, diffStep_rebuild o nw d0 n d1 hstep]
      by_cases hrc : rebuildFlag o nw n = true <;>
        simp [hrc, List.filter_cons, List.append_assoc]

lemma diffFold_elem_ok (o : Option RawSchema) (nw : RawSchema) (names : List String)
    (d0 d : SchemaDiff) (h : names.foldlM (diffStep o nw) d0 = Except.ok d) :
    ∀ n ∈ names, ∃ dIn dOut, diffStep o nw dIn n = Except.ok dOut := by
  induction names generalizing d0 with
  | nil => intro n hn; simp at hn
  | cons m ns ih =>
    rw [List.foldlM_cons] at h
    cases hstep : diffStep o nw d0 m with
    | error e =>
      rw [hstep] at h
      have : (Except.error e >>= fun d1 => ns.foldlM (diffStep o nw) d1)
          = (Except.error e : Except Unit SchemaDiff) := rfl
      rw [this] at h
      simp at h
    | ok d1 =>
      rw [hstep] at h
      have hb : (Except.ok d1 >>= fun x => ns.foldlM (diffStep o nw) x)
          = ns.foldlM (diffStep o nw) d1 := rfl
      rw [hb] at h
      intro n hn
      rcases List.mem_cons.mp hn with h1 | h2
      · exact ⟨d0, d1, h1 ▸ hstep⟩
      · exact ih d1 h n h2

lemma mem_dedupFirst_aux (l : List String) :
    ∀ (acc : List String) (x : String),
      x ∈ l.foldl (fun acc y => if acc.contains y then acc else acc ++ [y]) acc ↔
        x ∈ acc ∨ x ∈ l := by
  induction l with
  | nil => intro acc x; simp
  | cons y l ih =>
    intro acc x
    simp only [List.foldl_cons]
    rw [ih]
    by_cases hc : acc.contains y = true
    · have hy : y ∈ acc := by simpa using hc
      simp only [hc, if_true]
      rw [List.mem_cons]
      constructor
      · rintro (h1 | h1)
        · exact Or.inl h1
        · exact Or.inr (Or.inr h1)
      · rintro (h1 | h1 | h1)
        · exact Or.inl h1
        · exact Or.inl (h1 ▸ hy)
        · exact Or.inr h1
    · have hc' := bool_eq_false hc
      simp only [hc', Bool.false_eq_true, if_false]
      rw [List.mem_append, List.mem_singleton, List.mem_cons]
      constructor
      · rintro ((h1 | h1) | h1)
        · exact Or.inl h1
        · exact Or.inr (Or.inl h1)
        · exact Or.inr (Or.inr h1)
      · rintro (h1 | h1 | h1)
        · exact Or.inl (Or.inl h1)
        · exact Or.inl (Or.inr h1)
        · exact Or.inr h1

lemma mem_dedupFirst (l : List String) (x : String) :
    x ∈ dedupFirst l ↔ x ∈ l := by
  unfold dedupFirst
  rw [mem_dedupFirst_aux]
  simp

lemma findKey_isSome_iff (l : List (String × Option RawTable)) (n : String) :
    (l.find? (fun e => e.1 == n)).isSome = true ↔ n ∈ l.map (fun e => e.1) := by
  induction l with
  | nil => simp
  | cons e l ih =>
    by_cases he : e.1 = n
    · have hb : (e.1 == n) = true := beq_iff_eq.mpr he
      simp [List.find?, hb, he]
    · have hb : (e.1 == n) = false := beq_eq_false_iff_ne.mpr he
      have he2 : ¬ n = e.1 := fun hh => he hh.symm
      simp [List.find?, hb, ih, he2]

lemma tableVal_isSome_iff (s : RawSchema) (n : String) :
    (tableVal s n).isSome = true ↔ n ∈ s.tables.map (fun e => e.1) := by
  unfold tableVal
  rw [← findKey_isSome_iff]
  cases s.tables.find? (fun e => e.1 == n) <;> simp

lemma oldHasTable_some_iff (os : RawSchema) (n : String) :
    oldHasTable (some os) n = true ↔ n ∈ os.tables.map (fun e => e.1) := by
  simp [oldHasTable]

lemma diffTables_some_eq (od td : RawTable) :
    diffTables (some od) td = Except.ok
      { indexDiff := if jsTruthyO td.index = true
          then some (diffArrays od.index td.index) else none
        needsRebuild := pathTruthy td.path && decide (od.path ≠ td.path) } := by
  unfold diffTables
  by_cases hidx : jsTruthyO td.index = true
  · by_cases hpath : pathTruthy td.path = true
    · simp [hidx, hpath]
    · simp [hidx, bool_eq_false hpath]
  · by_cases hpath : pathTruthy td.path = true
    · simp [bool_eq_false hidx, hpath]
    · simp [bool_eq_false hidx, bool_eq_false hpath]

lemma diffTables_none_ok (td : RawTable) (tc : TableChanges)
    (h : diffTables none td = Except.ok tc) : tc.needsRebuild = false := by
  unfold diffTables at h
  by_cases hidx : jsTruthyO td.index = true
  · simp [hidx] at h
  · have hidx' := bool_eq_false hidx
    by_cases hpath : pathTruthy td.path = true
    · simp [hidx', hpath] at h
    · have hpath' := bool_eq_false hpath
      simp only [hidx', hpath', Bool.false_eq_true, if_false] at h
      simp only [Except.ok.injEq] at h
      rw [← h]

lemma diffTables_none_path_not_ok (td : RawTable) (hpt : pathTruthy td.path = true)
    (tc : TableChanges) : diffTables none td ≠ Except.ok tc := by
  intro h
  unfold diffTables at h
  by_cases hidx : jsTruthyO td.index = true
  · simp [hidx] at h
  · simp [bool_eq_false hidx, hpt] at h

lemma oldDefOf_some_oldHas (o : Option RawSchema) (n : String) (od : RawTable)
    (h : oldDefOf o n = some od) : oldHasTable o n = true := by
  cases o with
  | none => exact absurd h (by simp [oldDefOf])
  | some os =>
    have h2 : (tableVal os n).bind id = some od := h
    rw [oldHasTable_some_iff, ← tableVal_isSome_iff]
    cases htv : tableVal os n with
    | none => rw [htv] at h2; simp at h2
    | some v => rfl

lemma mem_names_new (o : Option RawSchema) (nw : RawSchema) (n : String)
    (hn : n ∈ dedupFirst (getTableNames o ++ getTableNames (some nw)))
    (hno : oldHasTable o n = false) : n ∈ getTableNames (some nw) := by
  rcases List.mem_append.mp ((mem_dedupFirst _ _).mp hn) with h1 | h1
  · cases o with
    | none => simp [getTableNames] at h1
    | some os =>
      exfalso
      have : oldHasTable (some os) n = true :=
        (oldHasTable_some_iff os n).mpr h1
      rw [this] at hno
      exact absurd hno (by simp)
  · exact h1

/-- Claim C5 counterexample: table `a` is present in the old schema and
absent from the new one (not declared `null`), yet the remove set of the
diff is empty — absence is read as "unchanged", not as a removal. -/
theorem diff_remove_counterexample :
    ("a" ∈ c5old.tables.map (fun e => e.1)) ∧
    (tableVal c5new "a").isNone = true ∧
    removeSetOf (diff (some c5old) c5new) = [] :=
  ⟨by decide, rfl, rfl⟩

/-- Claim C5 (amended): every table name present in the old schema that
the new schema explicitly maps to `null` appears in the remove set of a
successful diff. -/
theorem diff_remove_explicit_null (o : RawSchema) (nw : RawSchema) (n : String)
    (h1 : n ∈ o.tables.map (fun e => e.1))
    (h2 : newHasTable nw n = false)
    (hok : (diff (some o) nw).isOk = true) :
    n ∈ removeSetOf (diff (some o) nw) := by
  obtain ⟨d, hd⟩ : ∃ d, diff (some o) nw = Except.ok d := by
    cases hdd : diff (some o) nw with
    | error e => rw [hdd] at hok; exact Bool.noConfusion hok
    | ok d => exact ⟨d, rfl⟩
  have hfold := hd
  unfold diff at hfold
  have hrem := diffFold_remove (some o) nw _ _ _ hfold
  rw [hd]
  simp only [removeSetOf]
  rw [hrem]
  simp only [List.nil_append]
  apply List.mem_filter.mpr
  constructor
  · rw [mem_dedupFirst]
    exact List.mem_append.mpr (Or.inl h1)
  · have hoh : oldHasTable (some o) n = true := (oldHasTable_some_iff o n).mpr h1
    simp [removeCond, hoh, h2]

/-- Claim C5 witness: a table the new schema maps to `null` lands in the
remove set. -/
theorem diff_remove_explicit_null_witness :
    "a" ∈ removeSetOf (diff (some c5old) c5newNull) :=
  diff_remove_explicit_null c5old c5newNull "a" (by decide) rfl rfl

/-- Claim C6 counterexample: table `a` is declared in both schemas and its
ingest path changes from `/posts` to absent, yet the rebuild set of the
diff is empty — the rebuild flag fires only when the new definition itself
carries a truthy path. -/
theorem diff_rebuild_counterexample :
    oldHasTable (some c6old) "a" = true ∧
    defPath (oldDefOf (some c6old) "a") = some "/posts" ∧
    defPath ((tableVal c6new "a").bind id) = none ∧
    newlyAdded (some c6old) c6new "a" = false ∧
    rebuildSetOf (diff (some c6old) c6new) = [] :=
  ⟨rfl, rfl, rfl, rfl, rfl⟩

/-- Claim C6 (amended): the rebuild set of a successful diff consists
exactly of the names newly added by the new schema together with the names
declared in both schemas whose new definition carries a truthy ingest path
differing from the old definition's path. -/
theorem diff_rebuild_exact (o : Option RawSchema) (nw : RawSchema) (n : String)
    (hok : (diff o nw).isOk = true) :
    n ∈ rebuildSetOf (diff o nw) ↔
      (newlyAdded o nw n = true ∨ pathChangedBoth o nw n = true) := by
  obtain ⟨d, hd⟩ : ∃ d, diff o nw = Except.ok d := by
    cases hdd : diff o nw with
    | error e => rw [hdd] at hok; exact Bool.noConfusion hok
    | ok d => exact ⟨d, rfl⟩
  have hfold := hd
  unfold diff at hfold
  have hreb := diffFold_rebuild o nw _ _ _ hfold
  rw [hd]
  simp only [rebuildSetOf]
  rw [hreb]
  simp only [List.nil_append]
  rw [List.mem_filter]
  constructor
  · rintro ⟨hn, hflag⟩
    unfold rebuildFlag at hflag
    by_cases hc1 : (oldHasTable o n && !newHasTable nw n) = true
    · rw [if_pos hc1] at hflag
      exact absurd hflag (by simp)
    · have hc1' := bool_eq_false hc1
      rw [if_neg hc1] at hflag
      by_cases hc2 : (!oldHasTable o n && newHasTable nw n) = true
      · left
        simp only [Bool.and_eq_true] at hc2
        rcases hc2 with ⟨hno, hyes⟩
        have hnof : oldHasTable o n = false := by
          cases hcc : oldHasTable o n
          · rfl
          · rw [hcc] at hno; simp at hno
        have hmemnew : n ∈ getTableNames (some nw) := mem_names_new o nw n hn hnof
        have hsome : (tableVal nw n).isSome = true :=
          (tableVal_isSome_iff nw n).mpr hmemnew
        cases htv : tableVal nw n with
        | none => rw [htv] at hsome; simp at hsome
        | some v =>
          cases v with
          | none =>
            have hnh : newHasTable nw n = false := by simp [newHasTable, htv]
            rw [hnh] at hyes
            simp at hyes
          | some td => simp [newlyAdded, hnof, htv]
      · rw [if_neg hc2] at hflag
        cases htv : tableVal nw n with
        | none => simp only [htv] at hflag; simp at hflag
        | some v =>
          cases v with
          | none => simp only [htv] at hflag; simp at hflag
          | some td =>
            simp only [htv] at hflag
            cases hdt : diffTables (oldDefOf o n) td with
            | error e => rw [hdt] at hflag; simp at hflag
            | ok tc =>
              rw [hdt] at hflag
              have hflag2 : tc.needsRebuild = true := hflag
              cases hod : oldDefOf o n with
              | none =>
                rw [hod] at hdt
                rw [diffTables_none_ok td tc hdt] at hflag2
                exact absurd hflag2 (by simp)
              | some od =>
                right
                rw [hod] at hdt
                rw [diffTables_some_eq od td] at hdt
                simp only [Except.ok.injEq] at hdt
                rw [← hdt] at hflag2
                have hoh := oldDefOf_some_oldHas o n od hod
                simp only [pathChangedBoth, hoh, Bool.true_and, htv, hod]
                simpa using hflag2
  · rintro (hna | hpc)
    · unfold newlyAdded at hna
      simp only [Bool.and_eq_true] at hna
      rcases hna with ⟨hno, hmatch⟩
      have hnof : oldHasTable o n = false := by
        cases hcc : oldHasTable o n
        · rfl
        · rw [hcc] at hno; simp at hno
      cases htv : tableVal nw n with
      | none => simp only [htv] at hmatch; simp at hmatch
      | some v =>
        cases v with
        | none => simp only [htv] at hmatch; simp at hmatch
        | some td =>
          have hsome : (tableVal nw n).isSome = true := by rw [htv]; rfl
          have hmemnew : n ∈ getTableNames (some nw) :=
            (tableVal_isSome_iff nw n).mp hsome
          have hnh : newHasTable nw n = true := by simp [newHasTable, htv]
          refine ⟨?_, ?_⟩
          · rw [mem_dedupFirst]
            exact List.mem_append.mpr (Or.inr hmemnew)
          · simp [rebuildFlag, hnof, hnh]
    · unfold pathChangedBoth at hpc
      simp only [Bool.and_eq_true] at hpc
      rcases hpc with ⟨hoh, hmatch⟩
      cases htv : tableVal nw n with
      | none => simp only [htv] at hmatch; simp at hmatch
      | some v =>
        cases v with
        | none => simp only [htv] at hmatch; simp at hmatch
        | some td =>
          simp only [htv] at hmatch
          simp only [Bool.and_eq_true] at hmatch
          rcases hmatch with ⟨hpt, hne⟩
          have hos : ∃ os, o = some os := by
            cases o with
            | none => rw [show oldHasTable none n = false from rfl] at hoh; simp at hoh
            | some os => exact ⟨os, rfl⟩
          rcases hos with ⟨os, rfl⟩
          have hmemold : n ∈ getTableNames (some os) :=
            (oldHasTable_some_iff os n).mp hoh
          have hnmem : n ∈ dedupFirst (getTableNames (some os) ++ getTableNames (some nw)) := by
            rw [mem_dedupFirst]
            exact List.mem_append.mpr (Or.inl hmemold)
          have hnh : newHasTable nw n = true := by simp [newHasTable, htv]
          have hc1 : (oldHasTable (some os) n && !newHasTable nw n) = false := by
            simp [hoh, hnh]
          have hc2 : (!oldHasTable (some os) n && newHasTable nw n) = false := by
            simp [hoh]
          refine ⟨hnmem, ?_⟩
          cases hod : oldDefOf (some os) n with
          | none =>
            exfalso
            obtain ⟨dIn, dOut, hstep⟩ :=
              diffFold_elem_ok (some os) nw _ _ _ hfold n hnmem
            obtain ⟨tc, htc⟩ :=
              diffStep_ok_diffTables (some os) nw dIn n dOut td hstep hc1 hc2 htv
            rw [hod] at htc
            exact diffTables_none_path_not_ok td hpt tc htc
          | some od =>
            have hbind : (oldDefOf (some os) n).bind (fun t => t.path) = od.path := by
              rw [hod]; rfl
            rw [hbind] at hne
            unfold rebuildFlag
            simp only [hc1, hc2, Bool.false_eq_true, if_false, htv, hod,
              diffTables_some_eq]
            simp [hpt, hne]

/-- Claim C6 witness: a newly added table lands in the rebuild set. -/
theorem diff_rebuild_exact_witness :
    "b" ∈ rebuildSetOf (diff (some w6old) w6new) :=
  (diff_rebuild_exact (some w6old) w6new "b" rfl).mpr (Or.inl rfl)

end Injest
